import Mathlib

/-!
Verification development for the chain-synchronization core of ilxd
(`sync/sync_manager.go` and the blockchain proof validator).

The Go source is shallowly embedded: pure fragments become Lean functions,
stateful fragments become explicit state passing, peer I/O becomes oracle
functions supplied in an environment structure, and a Go panic is modelled
as `Option.none`.  Machine integers are modelled as `Nat` (the Go code never
overflows the quantities involved in the claims; where a specific constant
such as `math.MaxInt32` matters it is written out explicitly).
-/

namespace Ilxd

/-- Block IDs (`types.ID`, an opaque 32-byte hash) are modelled as `Nat`
with equality as byte-compare equality. -/
abbrev ID := Nat

/-- The zero value of `types.ID` (all-zero bytes). -/
def zeroID : ID := 0

/-! ## SyncManager current/quit state (`Close`, `SetCurrent`, `IsCurrent`)

`sync/sync_manager.go` lines 335-367.  The mutable fields touched by these
methods are the `current` flag and the `quit` channel; closing an already
closed Go channel panics, so the state records whether `quit` is closed and
`closeSM` returns `none` for the panic. -/

/-- The fields of `SyncManager` relevant to `Close`/`SetCurrent`/`Start`:
the `current` flag and whether the `quit` channel has been closed. -/
structure SMState where
  current    : Bool
  quitClosed : Bool
deriving Repr, DecidableEq

/-- State after `NewSyncManager`: not current, fresh (open) `quit` channel. -/
def initSMState : SMState := { current := false, quitClosed := false }

/-- `Close()` (lines 335-343): sets `current = false` then `close(sm.quit)`.
In Go, `close` of an already-closed channel panics; the panic is `none`. -/
def closeSM (s : SMState) : Option SMState :=
  let s' := { s with current := false }
  if s'.quitClosed then none
  else some { s' with quitClosed := true }

/-- The state update performed at the top of `Start()` (line 108):
`sm.quit = make(chan struct{})` replaces the quit channel with a fresh
open one. -/
def startReset (s : SMState) : SMState :=
  { s with quitClosed := false }

/-- `SetCurrent()` (lines 355-367): sets `current = true` and, whenever the
callback is non-nil, spawns it — the `!sm.current` guard only wraps the log
line.  Returns the new state and whether the callback was invoked. -/
def setCurrent (callbackPresent : Bool) (s : SMState) : SMState × Bool :=
  ({ s with current := true }, callbackPresent)

/-- `IsCurrent()` (lines 347-352). -/
def isCurrent (s : SMState) : Bool := s.current

/-! ## Proof validator (`blockchain` package, `proofValidator.validateHandler`)

The validator pulls transactions off a work channel and, per transaction
variant, checks the proof cache before calling the verifier.  The per-
transaction body is sequential, so it embeds as a pure function from the
transaction and cache to a result; the `Bool` in the result records whether
`Verifier.Verify` was invoked. -/

/-- The five transaction variants of `transactions.Transaction.GetTx()`. -/
inductive TxVariant where
  | standard | coinbase | treasury | mint | stake
deriving Repr, DecidableEq

/-- The fields of a transaction the proof validator reads: its variant tag,
its proof bytes, and its transaction ID (`tx.ID()`, the cache context). -/
structure Tx where
  variant : TxVariant
  proof   : List Nat
  txid    : ID
deriving Repr, DecidableEq

/-- Modelled from the spec: `types.NewIDFromData` (the hash giving
`proofHash`) is not under `src/`; the spec describes it only as a
deterministic content hash, so it is an oracle parameter of the
validator environment (`ProofEnv.hashData`). -/
structure ProofEnv where
  hashData : List Nat → ID
  /-- `ToCircuitParams` succeeds or errors; the params themselves are opaque. -/
  circuitParamsOk : Tx → Bool
  /-- `Verifier.Verify(program(variant), params, proof)`:
  `none` models the error return, `some b` the validity verdict. -/
  verify : TxVariant → Tx → Option Bool

/-- Modelled from the spec: the `ProofCache` lives outside `src/`; the spec
says it is a triple-keyed memo `(hash(proof), proof-bytes, context-id)`,
so it is a list of such triples. -/
abbrev ProofCache := List (ID × List Nat × ID)

/-- Modelled from the spec: `ProofCache.Exists(proofHash, proof, ctx)` is
membership of the triple (the hit re-checks the stored proof bytes and
context id against the arguments). -/
def cacheExists (c : ProofCache) (h : ID) (proof : List Nat) (ctx : ID) : Bool :=
  c.contains (h, proof, ctx)

/-- Modelled from the spec: `ProofCache.Add` records the triple. -/
def cacheAdd (c : ProofCache) (h : ID) (proof : List Nat) (ctx : ID) : ProofCache :=
  (h, proof, ctx) :: c

/-- Validation error results, as distinguished by the Go code. -/
inductive VErr where
  | circuitParams | verifierError | invalidProof
deriving Repr, DecidableEq

/-- The per-transaction body of the `switch` in `validateHandler`
(lines 343-468), one arm per variant; each arm hashes the proof, consults
the cache, builds circuit params, and calls `Verifier.Verify` with the
variant's validation program.  Returns the result sent on `resultChan`,
whether `Verifier.Verify` was invoked, and the updated cache. -/
def validateTx (env : ProofEnv) (cache : ProofCache) (t : Tx) :
    Except VErr Unit × Bool × ProofCache :=
  match t.variant with
  | .standard =>
      let proofHash := env.hashData t.proof
      if cacheExists cache proofHash t.proof t.txid then (.ok (), false, cache)
      else if !env.circuitParamsOk t then (.error .circuitParams, false, cache)
      else
        match env.verify .standard t with
        | none => (.error .verifierError, true, cache)
        | some false => (.error .invalidProof, true, cache)
        | some true => (.ok (), true, cacheAdd cache proofHash t.proof t.txid)
  | .coinbase =>
      let proofHash := env.hashData t.proof
      if cacheExists cache proofHash t.proof t.txid then (.ok (), false, cache)
      else if !env.circuitParamsOk t then (.error .circuitParams, false, cache)
      else
        match env.verify .coinbase t with
        | none => (.error .verifierError, true, cache)
        | some false => (.error .invalidProof, true, cache)
        | some true => (.ok (), true, cacheAdd cache proofHash t.proof t.txid)
  | .treasury =>
      let proofHash := env.hashData t.proof
      if cacheExists cache proofHash t.proof t.txid then (.ok (), false, cache)
      else if !env.circuitParamsOk t then (.error .circuitParams, false, cache)
      else
        match env.verify .treasury t with
        | none => (.error .verifierError, true, cache)
        | some false => (.error .invalidProof, true, cache)
        | some true => (.ok (), true, cacheAdd cache proofHash t.proof t.txid)
  | .mint =>
      let proofHash := env.hashData t.proof
      if cacheExists cache proofHash t.proof t.txid then (.ok (), false, cache)
      else if !env.circuitParamsOk t then (.error .circuitParams, false, cache)
      else
        match env.verify .mint t with
        | none => (.error .verifierError, true, cache)
        | some false => (.error .invalidProof, true, cache)
        | some true => (.ok (), true, cacheAdd cache proofHash t.proof t.txid)
  | .stake =>
      let proofHash := env.hashData t.proof
      if cacheExists cache proofHash t.proof t.txid then (.ok (), false, cache)
      else if !env.circuitParamsOk t then (.error .circuitParams, false, cache)
      else
        match env.verify .stake t with
        | none => (.error .verifierError, true, cache)
        | some false => (.error .invalidProof, true, cache)
        | some true => (.ok (), true, cacheAdd cache proofHash t.proof t.txid)

/-! ## Headers, blocks and flags -/

/-- The fields of `blocks.BlockHeader` the sync manager reads: `Height`,
`Parent`, `TxRoot`; `extra` stands for the remaining opaque fields so that
distinct headers with equal visible fields exist. -/
structure BlockHeader where
  height : Nat
  parent : ID
  txRoot : Nat
  extra  : Nat
deriving Repr, DecidableEq

/-- A `blocks.Block`: header plus transactions. -/
structure Block where
  header : BlockHeader
  txs    : List Tx
deriving Repr, DecidableEq

/-- The `Transactions` field of one `blocks.BlockTxs` message. -/
abbrev BlockTxs := List Tx

/-- The `blockchain.BehaviorFlags` bits the sync manager tests. -/
structure BehaviorFlags where
  noValidation : Bool
  fastAdd      : Bool
deriving Repr, DecidableEq

/-- `blockchain.BFNone`. -/
def BFNone : BehaviorFlags := ⟨false, false⟩

/-- Observable events of a sync run: ban-score increases
(`network.IncreaseBanscore(p, hard, soft)` for the peer in question), blocks
handed to `chain.ConnectBlock`, and `ConsensusChooser` invocations. -/
inductive Event where
  | ban (hard soft : Nat)
  | connect (b : Block)
  | chooserCall (firstBlocks : List Block)
deriving Repr, DecidableEq

/-- `evaluationWindow = 5000` (sync_manager.go line 31). -/
def evaluationWindow : Nat := 5000

/-! ## Stream downloads (`downloadHeaders`, `downloadBlockTxs`)

The two Go functions (lines 771-799 and 801-829) are textually identical up
to the element type, so they are embedded as one generic loop.  A call to
`GetHeadersStream`/`GetBlockTxsStream` at a height is an oracle returning
`none` (error) or the finite list of items the stream yields before closing.
The inner `for ... range ch` loop appends items, increments `height`, and
returns early as soon as `height > endHeight` (discarding the rest of the
stream). -/

/-- The inner stream-consumption loop.  Returns the new accumulator, the new
height, and whether the early `return` (on `height > endHeight`) fired. -/
def consumeStream (endHeight : Nat) :
    List α → Nat → List α → List α × Nat × Bool
  | [], height, acc => (acc, height, false)
  | item :: rest, height, acc =>
      let acc' := acc ++ [item]
      let height' := height + 1
      if endHeight < height' then (acc', height', true)
      else consumeStream endHeight rest height' acc'

/-- The outer download loop.  `fuel` bounds the recursion; each recursive
call strictly increases `height` while `height ≤ endHeight`, so
`endHeight + 2` fuel is never exhausted on the paths the theorems use. -/
def downloadLoop (stream : Nat → Option (List α)) (endHeight : Nat) :
    Nat → Nat → List α → Except String (List α)
  | 0, _, _ => .error "out of fuel"
  | fuel + 1, height, acc =>
      match stream height with
      | none => .error "stream error"
      | some items =>
          match consumeStream endHeight items height acc with
          | (acc', height', early) =>
            if early then .ok acc'
            else if items.length = 0 then
              if acc'.length = 0 then .error "peer closed stream without sending any items"
              else .ok acc'
            else if endHeight < height' then .ok acc'
            else downloadLoop stream endHeight fuel height' acc'

/-- `downloadHeaders` / `downloadBlockTxs`, generically: download items for
heights `[startHeight..endHeight]` from repeated stream requests. -/
def downloadStream (stream : Nat → Option (List α)) (startHeight endHeight : Nat) :
    Except String (List α) :=
  downloadLoop stream endHeight (endHeight + 2) startHeight []

/-! ## Per-peer environment and `downloadEvalWindow` -/

/-- The oracles describing one peer and the local chain collaborators, as
used by `syncBlocks` and `downloadEvalWindow`.  `idFn` is modelled from the
spec: `BlockHeader.ID()` is not under `src/`, and the spec describes it only
as a deterministic content hash of the header. -/
structure SyncEnv where
  headerStream : Nat → Option (List BlockHeader)
  txStream     : Nat → Option (List BlockTxs)
  idFn         : BlockHeader → ID
  merkleRoot   : List Tx → Nat
  proofBatchOk : List Tx → Bool
  sigBatchOk   : List Tx → Bool
  connectOk    : Block → BehaviorFlags → Bool
  smFlag       : BehaviorFlags

/-- `downloadHeaders(p, startHeight, endHeight)` (lines 771-799). -/
def downloadHeaders (env : SyncEnv) (startHeight endHeight : Nat) :
    Except String (List BlockHeader) :=
  downloadStream env.headerStream startHeight endHeight

/-- `downloadBlockTxs(p, startHeight, endHeight)` (lines 801-829). -/
def downloadBlockTxs (env : SyncEnv) (startHeight endHeight : Nat) :
    Except String (List BlockTxs) :=
  downloadStream env.txStream startHeight endHeight

/-- The zip loop of `downloadEvalWindow` (lines 588-593):
`for i, tx := range txs` pairs `txs[i]` with `headers[i]`; indexing past the
end of `headers` is a Go panic, modelled as `none`. -/
def zipBlocks : List BlockHeader → List BlockTxs → Option (List Block)
  | _, [] => some []
  | [], _ :: _ => none
  | hd :: hds, t :: ts => (zipBlocks hds ts).map (fun r => ⟨hd, t⟩ :: r)

/-- `downloadEvalWindow(p, fromHeight)` (lines 576-595).  The outer `Option`
is a Go panic (out-of-range header index); inside it, the events emitted
(soft bans on download failure) and the error-or-blocks result. -/
def downloadEvalWindow (env : SyncEnv) (fromHeight : Nat) :
    Option (List Event × Except String (List Block)) :=
  match downloadHeaders env fromHeight (fromHeight + evaluationWindow - 1) with
  | .error e => some ([.ban 0 20], .error e)
  | .ok headers =>
    match downloadBlockTxs env fromHeight (fromHeight + evaluationWindow - 1) with
    | .error e => some ([.ban 0 20], .error e)
    | .ok txs =>
      match zipBlocks headers txs with
      | none => none
      | some blks => some ([], .ok blks)

/-! ## `syncBlocks` (lines 597-699)

`syncBlocks` downloads headers, runs the three header checks (hard-banning
on failure), then processes the height range in batches: download the
batch's transactions, zip them against the headers with a Merkle-root check
(hard ban on mismatch), validate proofs and signatures for the whole batch
(surfacing an error, with no ban, on failure), and hand each block to
`ConnectBlock`.  A Go panic (header index out of range, empty header list)
is `none`. -/

/-- `maxBatchSize` is declared in `chain_service.go`, which is not under
`src/`.  Modelled from the spec: the tunables list gives
`maxBatchSize` (e.g. 500). -/
def maxBatchSize : Nat := 500

/-- The distinct error returns of `syncBlocks`, one constructor per
`fmt.Errorf` site. -/
inductive SyncErr where
  | download (msg : String)
  | unexpectedTipID
  | unexpectedParent
  | headersNotConnected
  | txDownload (msg : String)
  | merkleMismatch
  | proofInvalid
  | sigInvalid
  | connectFailed
deriving Repr, DecidableEq

/-- The interior-connectivity loop (lines 612-617): every header after the
first has `Parent` equal to the previous header's `ID()`.  The Go loop runs
from the end downward; the conjunction is order-independent. -/
def chainLinked (idFn : BlockHeader → ID) : List BlockHeader → Bool
  | [] => true
  | [_] => true
  | a :: b :: rest => (b.parent == idFn a) && chainLinked idFn (b :: rest)

/-- The batch-assembly loop (lines 638-651): pair `txs[x]` with
`headers[i]` starting at header index `i`, checking each block's Merkle
root against the header's `TxRoot`.  `none` is the Go panic on a header
index out of range; `some (.error _)` the hard-banned Merkle mismatch. -/
def buildBatch (env : SyncEnv) (headers : List BlockHeader) :
    Nat → List BlockTxs → Option (Except SyncErr (List Block))
  | _, [] => some (.ok [])
  | i, t :: ts =>
      match headers[i]? with
      | none => none
      | some hd =>
          if env.merkleRoot t ≠ hd.txRoot then some (.error .merkleMismatch)
          else (buildBatch env headers (i + 1) ts).map (Except.map (fun blks => ⟨hd, t⟩ :: blks))

/-- The connect loop (lines 688-692): hand each block of the batch to
`chain.ConnectBlock(blk, flags)` in order, surfacing the first error.
Every handed block is recorded as a `connect` event, the failing one
included. -/
def connectBlocks (env : SyncEnv) (flags : BehaviorFlags) :
    List Block → List Event × Except SyncErr Unit
  | [] => ([], .ok ())
  | b :: bs =>
      if env.connectOk b flags then
        let r := connectBlocks env flags bs
        (.connect b :: r.1, r.2)
      else ([.connect b], .error .connectFailed)

/-- Outcome of one iteration of the batch loop. -/
inductive BatchOut where
  | fail (evs : List Event) (e : SyncErr)
  | done (evs : List Event)
  | next (evs : List Event) (nextStart nextIdx : Nat)
deriving Repr, DecidableEq

/-- One iteration of the batch loop of `syncBlocks` (lines 626-697):
download the transactions for `[start..min (start+maxBatchSize) endHeight]`,
assemble and Merkle-check the batch, validate proofs then signatures for
the whole batch unless `sm.behavorFlag` has `BFNoValidation` or
`BFFastAdd` (note: the gate reads the manager's flag, not the `flags`
argument), then connect the blocks. -/
def processBatch (env : SyncEnv) (flags : BehaviorFlags) (headers : List BlockHeader)
    (endHeight start headerIdx : Nat) : Option BatchOut :=
  let stop := if endHeight < start + maxBatchSize then endHeight else start + maxBatchSize
  match downloadBlockTxs env start stop with
  | .error e => some (.fail [.ban 0 20] (.txDownload e))
  | .ok txs =>
      match buildBatch env headers headerIdx txs with
      | none => none
      | some (.error er) => some (.fail [.ban 101 0] er)
      | some (.ok blks) =>
          let validate := !(env.smFlag.noValidation || env.smFlag.fastAdd)
          let toValidate := blks.flatMap (·.txs)
          if validate && !env.proofBatchOk toValidate then some (.fail [] .proofInvalid)
          else if validate && !env.sigBatchOk toValidate then some (.fail [] .sigInvalid)
          else
            match connectBlocks env flags blks with
            | (evs, .error e) => some (.fail evs e)
            | (evs, .ok _) =>
                if stop = endHeight then some (.done evs)
                else some (.next evs (stop + 1) (headerIdx + txs.length))

/-- The batch loop, driven by `processBatch`.  `fuel` bounds the recursion;
`start` strictly increases while bounded by `endHeight`, so the fuel
supplied by `syncBlocks` is never exhausted. -/
def batchLoop (env : SyncEnv) (flags : BehaviorFlags) (headers : List BlockHeader)
    (endHeight : Nat) : Nat → Nat → Nat → Option (List Event × Except SyncErr Unit)
  | 0, _, _ => none
  | fuel + 1, start, headerIdx =>
      match processBatch env flags headers endHeight start headerIdx with
      | none => none
      | some (.fail evs e) => some (evs, .error e)
      | some (.done evs) => some (evs, .ok ())
      | some (.next evs start' idx') =>
          (batchLoop env flags headers endHeight fuel start' idx').map
            (fun r => (evs ++ r.1, r.2))

/-- `syncBlocks(p, fromHeight, toHeight, parent, expectedID, flags)`
(lines 597-699).  Returns the ordered event trace and the result; `none`
is a Go panic. -/
def syncBlocks (env : SyncEnv) (fromHeight toHeight : Nat) (parent expectedID : ID)
    (flags : BehaviorFlags) : Option (List Event × Except SyncErr Unit) :=
  match downloadHeaders env fromHeight toHeight with
  | .error e => some ([.ban 0 20], .error (.download e))
  | .ok headers =>
      match headers.getLast?, headers.head? with
      | some lastH, some firstH =>
          if env.idFn lastH ≠ expectedID then some ([.ban 101 0], .error .unexpectedTipID)
          else if firstH.parent ≠ parent then some ([.ban 101 0], .error .unexpectedParent)
          else if !chainLinked env.idFn headers then some ([.ban 101 0], .error .headersNotConnected)
          else batchLoop env flags headers lastH.height (lastH.height + 2) firstH.height 0
      | _, _ => none

/-- The blocks handed to `ConnectBlock` in an event trace, in order. -/
def connectsOf (evs : List Event) : List Block :=
  evs.filterMap fun ev => match ev with | .connect b => some b | _ => none

/-- The conjunction of the three header checks of `syncBlocks`
(lines 603-617), as a predicate on the downloaded header sequence. -/
def headerChecks (idFn : BlockHeader → ID) (headers : List BlockHeader)
    (parent expectedID : ID) : Bool :=
  match headers.getLast?, headers.head? with
  | some lastH, some firstH =>
      (idFn lastH == expectedID) && (firstH.parent == parent) && chainLinked idFn headers
  | _, _ => false

/-! ## Fork resolution (`SyncManager.Start`, lines 228-328)

After syncing to the fork point, `Start` downloads the evaluation window of
every candidate tip (steps three and four), computes and normalizes chain
scores, and selects the winner either by `ConsensusChooser` (when
`tipOfChain` remained true) or by minimum score.  The `blockMap` is a Go
map; its iteration order is modelled as the order of the candidate list. -/

/-- The chain-level collaborators of fork resolution:
`Block.ID()` (via the header hash), `chain.CalcChainScore` and the
`ConsensusChooser` (both external; `none` models their error return). -/
structure ForkEnv where
  idFn      : BlockHeader → ID
  calcScore : List Block → Option Nat
  chooser   : List Block → Option ID

/-- The accumulators of the candidate-evaluation loop (lines 228-264). -/
structure EvalSt where
  scores      : List (ID × Nat)
  syncTo      : List (ID × Block)
  tipOfChain  : Bool
  firstBlocks : List Block
  firstMap    : List (ID × ID)
deriving Repr, DecidableEq

/-- The accumulator state at line 228: empty maps, `tipOfChain = true`. -/
def initEvalSt : EvalSt :=
  { scores := [], syncTo := [], tipOfChain := true, firstBlocks := [], firstMap := [] }

/-- The candidate-evaluation loop (lines 237-264).  For each
`(blockID, peer)` with `blockID ≠ forkBlock`: download the evaluation
window from `forkHeight+1` (failure: hard ban and `continue syncLoop`,
modelled as `.error` carrying the events), record the first block, compute
the chain score (failure: hard ban and retry), normalize a short window's
score and otherwise clear `tipOfChain`, and record score, window tip and
first-block mapping.  `none` is a Go panic (`blks[0]` of an empty slice). -/
def evalCandidates (fe : ForkEnv) (forkBlock : ID) (forkHeight : Nat) :
    List (ID × SyncEnv) → EvalSt → Option (Except (List Event) EvalSt)
  | [], st => some (.ok st)
  | (bid, penv) :: rest, st =>
      if bid = forkBlock then evalCandidates fe forkBlock forkHeight rest st
      else
        match downloadEvalWindow penv (forkHeight + 1) with
        | none => none
        | some (evs, .error _) => some (.error (evs ++ [.ban 101 0]))
        | some (_, .ok blks) =>
            match blks with
            | [] => none
            | b0 :: btl =>
                match fe.calcScore (b0 :: btl) with
                | none => some (.error [.ban 101 0])
                | some score =>
                    let blksLen := (b0 :: btl).length
                    let score' := if blksLen < evaluationWindow
                      then score / blksLen * evaluationWindow else score
                    let tip' := if blksLen < evaluationWindow then st.tipOfChain else false
                    evalCandidates fe forkBlock forkHeight rest
                      { scores := st.scores ++ [(bid, score')]
                        syncTo := st.syncTo ++ [(bid, (b0 :: btl).getLast (by simp))]
                        tipOfChain := tip'
                        firstBlocks := st.firstBlocks ++ [b0]
                        firstMap := st.firstMap ++ [(fe.idFn b0.header, bid)] }

/-- `math.MaxInt32`, the initial value of `bestScore` (line 268). -/
def maxInt32 : Nat := 2147483647

/-- The score-minimizing loop (lines 283-288) over the `scores` map in its
iteration order: strictly smaller scores replace the running best. -/
def selectLoop : List (ID × Nat) → Nat → ID → ID
  | [], _, bid => bid
  | (b, s) :: rest, bestScore, bid =>
      if s < bestScore then selectLoop rest s b else selectLoop rest bestScore bid

/-- Go map lookup `firstMap[bestID]` (line 281): the zero `types.ID` when
the key is absent. -/
def lookupD (m : List (ID × ID)) (k : ID) : ID :=
  match m.find? (fun p => p.1 == k) with
  | some p => p.2
  | none => zeroID

/-- The winner selection (lines 266-289).  When `tipOfChain` is true the
`ConsensusChooser` is asked over the first blocks (its error is the retry
`.error ()`); otherwise the minimum-score loop runs from
`bestScore = MaxInt32`, `bestID` the zero ID.  The `Bool` records whether
the chooser was used. -/
def selectBest (fe : ForkEnv) (tipOfChain : Bool) (firstBlocks : List Block)
    (firstMap : List (ID × ID)) (scoresIter : List (ID × Nat)) :
    Except Unit (ID × Bool) :=
  if tipOfChain then
    match fe.chooser firstBlocks with
    | none => .error ()
    | some cid => .ok (lookupD firstMap cid, true)
  else .ok (selectLoop scoresIter maxInt32 zeroID, false)

/-! ## `findForkPoint` (lines 701-769)

A binary search between `currentHeight` (where the peers agree) and
`toHeight` (where they disagree).  Each peer is an oracle for
`GetBlockID` (`.found`/`.notFound`/`.err`) with a `GetBest` fallback. -/

/-- Result of a `ChainService.GetBlockID` RPC. -/
inductive RpcRes where
  | found (i : ID) | notFound | err
deriving Repr, DecidableEq

/-- A peer as seen by `findForkPoint`: its `GetBlockID` answers and its
`GetBest` answer (`none` models a `GetBest` error). -/
structure ForkPeer where
  getBlockID : Nat → RpcRes
  best       : Option (ID × Nat)

/-- One peer's answer inside the query goroutine (lines 721-741): on
`ErrNotFound` fall back to `GetBest` and hard-ban if the reported best
height is below `startHeight` or at/above the queried height.  `.error`
carries whether the hard ban fired. -/
def peerAnswer (startHeight getHeight : Nat) (p : ForkPeer) : Except Bool ID :=
  match p.getBlockID getHeight with
  | .found i => .ok i
  | .err => .error false
  | .notFound =>
      match p.best with
      | none => .error false
      | some (i, h) =>
          if h < startHeight ∨ getHeight ≤ h then .error true else .ok i

/-- The response collection for one midpoint (lines 746-752): any failed
peer aborts the search with an error; otherwise the answers are collected
(`retMap` is their deduplication). -/
def queryMid (startHeight getHeight : Nat) (peers : List ForkPeer) :
    Except Unit (List ID) :=
  if peers.any (fun p => (peerAnswer startHeight getHeight p).isOk = false) then .error ()
  else .ok (peers.filterMap (fun p => (peerAnswer startHeight getHeight p).toOption))

/-- The binary-search loop of `findForkPoint` (lines 714-768).  `prevMid`
equals the midpoint queried in this iteration; the loop returns when the
updated midpoint equals it.  In the agreeing branch `midID` is replaced by
the single reported ID (`for k := range retMap`); `fuel` bounds the
recursion and is never exhausted from `findForkPoint`'s initial value on
the paths the theorems use. -/
def forkLoop (peers : List ForkPeer) (startHeight : Nat) :
    Nat → Nat → Nat → Nat → Nat → ID → Except Unit (ID × Nat)
  | 0, _, _, _, _, _ => .error ()
  | fuel + 1, currentHeight, toHeight, midPoint, prevMid, midID =>
      match queryMid startHeight midPoint peers with
      | .error _ => .error ()
      | .ok answers =>
          if 1 < answers.dedup.length then
            let toHeight' := midPoint
            let mid' := currentHeight + (midPoint - currentHeight) / 2
            if prevMid = mid' then .ok (midID, mid')
            else forkLoop peers startHeight fuel currentHeight toHeight' mid' mid' midID
          else
            let current' := midPoint
            let mid' := midPoint + (toHeight - midPoint) / 2
            let midID' := answers.dedup.headD midID
            if prevMid = mid' then .ok (midID', mid')
            else forkLoop peers startHeight fuel current' toHeight mid' mid' midID'

/-- `findForkPoint(currentHeight, toHeight, blockMap)` (lines 701-769). -/
def findForkPoint (peers : List ForkPeer) (currentHeight toHeight : Nat) :
    Except Unit (ID × Nat) :=
  let mid0 := currentHeight + (toHeight - currentHeight) / 2
  forkLoop peers currentHeight (toHeight + 2) currentHeight toHeight mid0 mid0 zeroID

/-! ## Theorems -/

/-- C6: for every transaction processed by the proof validator, of any
variant, if the triple (hash of the proof, proof bytes, transaction
context id) is already in the proof cache, the validator reports success
for that transaction, `Verifier.Verify` is not invoked, and the cache is
unchanged. -/
theorem validateTx_cache_hit (env : ProofEnv) (cache : ProofCache) (t : Tx)
    (h : cacheExists cache (env.hashData t.proof) t.proof t.txid = true) :
    validateTx env cache t = (.ok (), false, cache) := by
  obtain ⟨v, pf, ctx⟩ := t
  cases v <;> simp_all [validateTx]

/-- Concrete proof-validator environment for the C6 witness: the verifier
would reject the proof, so a success can only come from the cache hit. -/
def env6 : ProofEnv :=
  { hashData := fun l => l.length + 40
    circuitParamsOk := fun _ => true
    verify := fun _ _ => some false }

/-- Witness for C6 at a concrete standard transaction whose proof triple is
cached. -/
theorem validateTx_cache_hit_witness :
    cacheExists [(42, [1, 2], 9)] (env6.hashData [1, 2]) [1, 2] 9 = true ∧
    validateTx env6 [(42, [1, 2], 9)] ⟨.standard, [1, 2], 9⟩ =
      (.ok (), false, [(42, [1, 2], 9)]) :=
  ⟨by decide, validateTx_cache_hit env6 [(42, [1, 2], 9)] ⟨.standard, [1, 2], 9⟩ (by decide)⟩

/-- C8 (code bug): a first `Close()` resets the state, but a second
`Close()` without an intervening `Start()` reaches `close(sm.quit)` with
the channel already closed, which panics in Go (`none` here) instead of
returning to idle. -/
theorem closeSM_close_twice_panics :
    closeSM initSMState = some { current := false, quitClosed := true } ∧
    closeSM { current := false, quitClosed := true } = none := by decide

/-- C9 (counterexample): with the manager already current and a non-nil
callback, `SetCurrent()` invokes the callback again — the `!sm.current`
guard in the source only wraps the log line, so the callback is not
one-shot. -/
theorem setCurrent_repeat_invokes_callback :
    isCurrent { current := true, quitClosed := false } = true ∧
    (setCurrent true { current := true, quitClosed := false }).2 = true := by decide

/-- C9 (amended): `SetCurrent` always sets the current flag (so within a
session the flag only moves `false → true`), `Close` resets it to `false`,
but the callback is invoked on every `SetCurrent` call with a non-nil
callback, not only on the first transition. -/
theorem setCurrent_sets_flag_callback_every_call (cb : Bool) (s s' : SMState)
    (hc : closeSM s = some s') :
    (setCurrent cb s).1.current = true ∧ (setCurrent cb s).2 = cb ∧
      s'.current = false := by
  refine ⟨rfl, rfl, ?_⟩
  by_cases hq : s.quitClosed
  · simp [closeSM, hq] at hc
  · simp [closeSM, hq] at hc
    exact hc ▸ rfl

/-- Witness for the amended C9 at the freshly constructed manager state. -/
theorem setCurrent_sets_flag_witness :
    (setCurrent true initSMState).1.current = true ∧
    (setCurrent true initSMState).2 = true ∧
    SMState.current { current := false, quitClosed := true } = false :=
  setCurrent_sets_flag_callback_every_call true initSMState
    { current := false, quitClosed := true } (by decide)

/-! ### Download-loop lemmas -/

theorem consumeStream_false {α : Type} {e : Nat} {items : List α} :
    ∀ {h : Nat} {acc acc' : List α} {h' : Nat},
      consumeStream e items h acc = (acc', h', false) →
      acc' = acc ++ items ∧ h' = h + items.length ∧ (items ≠ [] → h' ≤ e) := by
  induction items with
  | nil =>
      intro h acc acc' h' heq
      simp [consumeStream] at heq
      simp [heq.1, heq.2]
  | cons a tl ih =>
      intro h acc acc' h' heq
      simp only [consumeStream] at heq
      by_cases hlt : e < h + 1
      · simp [hlt] at heq
      · simp only [if_neg hlt] at heq
        obtain ⟨e1, e2, _⟩ := ih heq
        refine ⟨by simp [e1], by simp [e2]; omega, fun _ => ?_⟩
        have : h' = h + 1 + tl.length := by simpa using e2
        rcases tl with _ | ⟨b, tl'⟩
        · simp at this; omega
        · exact (ih heq).2.2 (by simp)

theorem consumeStream_true {α : Type} {e : Nat} {items : List α} :
    ∀ {h : Nat} {acc acc' : List α} {h' : Nat},
      consumeStream e items h acc = (acc', h', true) →
      acc.length < acc'.length ∧ h' + acc.length = h + acc'.length ∧
        e < h' ∧ h' ≤ max (e + 1) (h + 1) := by
  induction items with
  | nil =>
      intro h acc acc' h' heq
      simp [consumeStream] at heq
  | cons a tl ih =>
      intro h acc acc' h' heq
      simp only [consumeStream] at heq
      by_cases hlt : e < h + 1
      · simp only [if_pos hlt] at heq
        have hacc : acc ++ [a] = acc' := congrArg Prod.fst heq
        have hh : h + 1 = h' := congrArg (fun p => p.2.1) heq
        have hlen : acc'.length = acc.length + 1 := by rw [← hacc]; simp
        exact ⟨by omega, by omega, by omega, by omega⟩
      · simp only [if_neg hlt] at heq
        obtain ⟨l1, l2, l3, l4⟩ := ih heq
        refine ⟨by simp at l1; omega, by simp at l2; omega, l3, by simp at l4; omega⟩

/-- A successful download is nonempty and no longer than the requested
range (one item minimum when the range is empty). -/
theorem downloadLoop_ok_bounds {α : Type} {stream : Nat → Option (List α)} {e s : Nat} :
    ∀ (fuel : Nat) {h : Nat} {acc l : List α},
      h = s + acc.length → (acc = [] ∨ h ≤ e) →
      downloadLoop stream e fuel h acc = .ok l →
      l ≠ [] ∧ l.length ≤ max (e + 1 - s) 1 := by
  intro fuel
  induction fuel with
  | zero => intro h acc l _ _ heq; simp [downloadLoop] at heq
  | succ n ih =>
      intro h acc l hinv hrange heq
      cases hst : stream h with
      | none => simp only [downloadLoop, hst] at heq; exact absurd heq (by simp)
      | some items =>
          rcases hcs : consumeStream e items h acc with ⟨acc', h', early⟩
          simp only [downloadLoop, hst, hcs] at heq
          cases early with
            | true =>
                simp only [if_pos rfl] at heq
                cases heq
                obtain ⟨l1, l2, _, l4⟩ := consumeStream_true hcs
                constructor
                · intro hnil; rw [hnil] at l1; simp at l1
                · rcases hrange with hacc | hle
                  · subst hacc; simp at hinv l2 ⊢; omega
                  · omega
            | false =>
                simp only [Bool.false_eq_true, if_false] at heq
                obtain ⟨e1, e2, e3⟩ := consumeStream_false hcs
                by_cases hz : items.length = 0
                · rw [if_pos hz] at heq
                  have hacc' : acc' = acc := by
                    rw [e1]; simp [List.length_eq_zero.mp hz]
                  by_cases haz : acc'.length = 0
                  · rw [if_pos haz] at heq; simp at heq
                  · rw [if_neg haz] at heq
                    cases heq
                    rcases hrange with hacc | hle
                    · rw [hacc] at hacc'; rw [hacc'] at haz; simp at haz
                    · refine ⟨by simpa [← List.length_eq_zero, hacc'] using haz, ?_⟩
                      rw [hacc']; omega
                · rw [if_neg hz] at heq
                  have hne : items ≠ [] := by
                    intro hni; rw [hni] at hz; simp at hz
                  have hle' : h' ≤ e := e3 hne
                  rw [if_neg (by omega : ¬ e < h')] at heq
                  exact ih (by rw [e2, e1]; simp; omega) (Or.inr hle') heq

theorem downloadStream_ok {α : Type} {stream : Nat → Option (List α)} {s e : Nat}
    {l : List α} (heq : downloadStream stream s e = .ok l) :
    l ≠ [] ∧ l.length ≤ max (e + 1 - s) 1 :=
  downloadLoop_ok_bounds (e + 2) (by simp) (Or.inl rfl) heq

/-- The zip of `downloadEvalWindow` succeeds whenever the transaction list
is no longer than the header list, producing one block per `BlockTxs`. -/
theorem zipBlocks_of_le :
    ∀ (ts : List BlockTxs) (hs : List BlockHeader), ts.length ≤ hs.length →
      ∃ blks, zipBlocks hs ts = some blks ∧ blks.length = ts.length := by
  intro ts
  induction ts with
  | nil => intro hs _; exact ⟨[], by cases hs <;> simp [zipBlocks], rfl⟩
  | cons t ts' ih =>
      intro hs hlen
      cases hs with
      | nil => simp at hlen
      | cons hd hs' =>
          obtain ⟨blks, hb, hl⟩ := ih hs' (by simpa using hlen)
          exact ⟨⟨hd, t⟩ :: blks, by simp [zipBlocks, hb], by simp [hl]⟩

/-- When the first stream request yields exactly the remaining range, the
inner loop consumes it all and returns early at the last item. -/
theorem consumeStream_exact {α : Type} {e : Nat} :
    ∀ (items : List α) (h : Nat) (acc : List α), items ≠ [] →
      h + items.length = e + 1 →
      consumeStream e items h acc = (acc ++ items, e + 1, true) := by
  intro items
  induction items with
  | nil => intro h acc hne _; exact absurd rfl hne
  | cons a tl ih =>
      intro h acc _ hlen
      simp only [consumeStream]
      by_cases hlt : e < h + 1
      · have htl : tl = [] := by
          have : tl.length = 0 := by simp at hlen; omega
          exact List.length_eq_zero.mp this
        subst htl
        rw [if_pos hlt]
        have : h + 1 = e + 1 := by simp at hlen; omega
        rw [this]
      · rw [if_neg hlt]
        have htl : tl ≠ [] := by
          intro hn; subst hn; simp at hlen; omega
        have := ih (h + 1) (acc ++ [a]) htl (by simp at hlen ⊢; omega)
        rw [this]; simp

/-- A peer that serves the whole requested range in one stream response
makes the download return exactly that range. -/
theorem downloadStream_oneshot {α : Type} (stream : Nat → Option (List α)) (s e : Nat)
    (items : List α) (hne : items ≠ []) (hlen : s + items.length = e + 1)
    (hstream : stream s = some items) :
    downloadStream stream s e = .ok items := by
  show downloadLoop stream e (e + 2) s [] = .ok items
  have hfuel : e + 2 = (e + 1) + 1 := rfl
  rw [hfuel]
  have hcs := consumeStream_exact items s ([] : List α) hne hlen
  simp only [downloadLoop, hstream, hcs, if_pos rfl]
  simp

/-- Concrete peer for the C10 counterexample: its header stream closes
after one header while its transaction stream serves two `BlockTxs`, so
both downloads succeed with the transaction list longer than the header
list. -/
def env10 : SyncEnv :=
  { headerStream := fun h => if h = 1 then some [⟨1, 0, 0, 0⟩] else some []
    txStream := fun h => if h = 1 then some [[], []] else some []
    idFn := fun _ => 0
    merkleRoot := fun _ => 0
    proofBatchOk := fun _ => true
    sigBatchOk := fun _ => true
    connectOk := fun _ _ => true
    smFlag := BFNone }

/-- C10 (counterexample): both downloads of `downloadEvalWindow` return
successfully, yet the transaction list is longer than the header list, so
the zip loop indexes `headers[1]` out of range — a Go panic (`none`) —
refuting the claim that the pairing is always in bounds. -/
theorem downloadEvalWindow_oob_panic :
    downloadHeaders env10 1 (1 + evaluationWindow - 1) = .ok [⟨1, 0, 0, 0⟩] ∧
    downloadBlockTxs env10 1 (1 + evaluationWindow - 1) = .ok [[], []] ∧
    downloadEvalWindow env10 1 = none :=
  ⟨rfl, rfl, rfl⟩

/-- C10 (amended): a successful tx download returns at most
`evaluationWindow` entries, so whenever the header download returns the
full evaluation window the pairing `txs[i] ↔ headers[i]` is in bounds and
`downloadEvalWindow` returns one block per `BlockTxs` entry without
panicking. -/
theorem downloadEvalWindow_full_window_safe (env : SyncEnv) (f : Nat)
    (headers : List BlockHeader) (txs : List BlockTxs)
    (hh : downloadHeaders env f (f + evaluationWindow - 1) = .ok headers)
    (ht : downloadBlockTxs env f (f + evaluationWindow - 1) = .ok txs)
    (hlen : headers.length = evaluationWindow) :
    ∃ blks, downloadEvalWindow env f = some ([], .ok blks) ∧
      blks.length = txs.length := by
  have hb := (downloadStream_ok ht).2
  have hle : txs.length ≤ headers.length := by
    rw [hlen]; simp [evaluationWindow] at hb ⊢; omega
  obtain ⟨blks, hz, hbl⟩ := zipBlocks_of_le txs headers hle
  exact ⟨blks, by simp [downloadEvalWindow, hh, ht, hz], hbl⟩

/-- Concrete peer serving a full evaluation window in single stream
responses, for the C10 witness. -/
def env10w : SyncEnv :=
  { headerStream := fun h => if h = 1 then some (List.replicate 5000 ⟨0, 0, 0, 0⟩) else none
    txStream := fun h => if h = 1 then some (List.replicate 5000 []) else none
    idFn := fun _ => 0
    merkleRoot := fun _ => 0
    proofBatchOk := fun _ => true
    sigBatchOk := fun _ => true
    connectOk := fun _ _ => true
    smFlag := BFNone }

/-- Witness for the amended C10 at a peer serving a full 5000-block
window. -/
theorem downloadEvalWindow_full_window_safe_witness :
    ∃ blks, downloadEvalWindow env10w 1 = some ([], .ok blks) ∧
      blks.length = (List.replicate 5000 ([] : BlockTxs)).length :=
  downloadEvalWindow_full_window_safe env10w 1
    (List.replicate 5000 ⟨0, 0, 0, 0⟩) (List.replicate 5000 [])
    (downloadStream_oneshot _ 1 (1 + evaluationWindow - 1) _
      (by intro h; have := congrArg List.length h;
          rw [List.length_replicate] at this; simp at this)
      (by rw [List.length_replicate]; decide) rfl)
    (downloadStream_oneshot _ 1 (1 + evaluationWindow - 1) _
      (by intro h; have := congrArg List.length h;
          rw [List.length_replicate] at this; simp at this)
      (by rw [List.length_replicate]; decide) rfl)
    (by rw [List.length_replicate]; rfl)

/-! ### `syncBlocks` structure lemmas -/

/-- Whether an event is a `ConnectBlock` hand-off (as opposed to a
ban-score increase or a chooser call). -/
def isConnectEvent : Event → Bool
  | .connect _ => true
  | _ => false

theorem connectBlocks_spec (env : SyncEnv) (flags : BehaviorFlags) :
    ∀ (blks : List Block) (evs : List Event) (r : Except SyncErr Unit),
      connectBlocks env flags blks = (evs, r) →
      (∃ m, connectsOf evs = blks.take m) ∧
      (r = .ok () → connectsOf evs = blks) ∧
      evs.all isConnectEvent = true ∧
      (∀ e, r = .error e → e = .connectFailed) := by
  intro blks
  induction blks with
  | nil =>
      intro evs r heq
      simp [connectBlocks] at heq
      obtain ⟨h1, h2⟩ := heq
      subst h1; subst h2
      refine ⟨⟨0, rfl⟩, fun _ => rfl, rfl, fun e he => ?_⟩
      cases he
  | cons b bs ih =>
      intro evs r heq
      simp only [connectBlocks] at heq
      by_cases hc : env.connectOk b flags = true
      · rw [if_pos hc] at heq
        obtain ⟨h1, h2⟩ : Event.connect b :: (connectBlocks env flags bs).1 = evs ∧
            (connectBlocks env flags bs).2 = r :=
          ⟨congrArg Prod.fst heq, congrArg Prod.snd heq⟩
        obtain ⟨⟨m, hm⟩, hok, hall, herr⟩ :=
          ih (connectBlocks env flags bs).1 (connectBlocks env flags bs).2 rfl
        subst h1; subst h2
        refine ⟨⟨m + 1, ?_⟩, ?_, ?_, herr⟩
        · simp only [connectsOf, List.filterMap_cons] at hm ⊢
          rw [hm, List.take_succ_cons]
        · intro hr
          simp only [connectsOf, List.filterMap_cons] at hok ⊢
          rw [hok hr]
        · simpa [isConnectEvent] using hall
      · rw [if_neg hc] at heq
        obtain ⟨h1, h2⟩ : [Event.connect b] = evs ∧
            (Except.error .connectFailed : Except SyncErr Unit) = r :=
          ⟨congrArg Prod.fst heq, congrArg Prod.snd heq⟩
        subst h1; subst h2
        refine ⟨⟨1, ?_⟩, fun h => ?_, ?_, fun e he => ?_⟩
        · simp [connectsOf]
        · cases h
        · simp [isConnectEvent]
        · cases he; rfl

theorem buildBatch_spec (env : SyncEnv) (headers : List BlockHeader) :
    ∀ (ts : List BlockTxs) (i : Nat) (res : Except SyncErr (List Block)),
      buildBatch env headers i ts = some res →
      (∀ er, res = .error er → er = .merkleMismatch) ∧
      (∀ blks, res = .ok blks →
        blks.map Block.header = (headers.drop i).take ts.length ∧
        blks.length = ts.length) := by
  intro ts
  induction ts with
  | nil =>
      intro i res heq
      simp [buildBatch] at heq
      subst heq
      refine ⟨fun er he => ?_, fun blks hb => ?_⟩
      · cases he
      · cases hb; simp
  | cons t ts' ih =>
      intro i res heq
      simp only [buildBatch] at heq
      cases hgi : headers[i]? with
      | none => simp only [hgi] at heq; exact absurd heq (by simp)
      | some hd =>
          simp only [hgi] at heq
          split at heq
          · cases heq
            refine ⟨fun er he => ?_, fun blks hb => ?_⟩
            · cases he; rfl
            · cases hb
          · cases hb : buildBatch env headers (i + 1) ts' with
            | none => rw [hb] at heq; cases heq
            | some res' =>
                rw [hb] at heq
                simp only [Option.map_some'] at heq
                cases heq
                obtain ⟨herr, hok⟩ := ih (i + 1) res' hb
                cases res' with
                | error er =>
                    refine ⟨fun er' he => ?_, fun blks hbk => ?_⟩
                    · cases he; exact herr er rfl
                    · cases hbk
                | ok blks' =>
                    refine ⟨fun er' he => ?_, fun blks hbk => ?_⟩
                    · cases he
                    · cases hbk
                      obtain ⟨hmap, hlen⟩ := hok blks' rfl
                      have hlt : i < headers.length := by
                        by_contra hge
                        rw [List.getElem?_eq_none (by omega)] at hgi
                        cases hgi
                      have hval : headers[i] = hd := by
                        have hg := List.getElem?_eq_getElem hlt (l := headers)
                        rw [hg] at hgi; exact Option.some.inj hgi
                      have hdrop : headers.drop i = hd :: headers.drop (i + 1) := by
                        rw [List.drop_eq_getElem_cons hlt, hval]
                      refine ⟨?_, by simp [hlen]⟩
                      rw [hdrop]
                      simp [hmap]

theorem processBatch_spec (env : SyncEnv) (flags : BehaviorFlags) (headers : List BlockHeader)
    (endHeight start idx : Nat) (out : BatchOut)
    (hout : processBatch env flags headers endHeight start idx = some out) :
    (∀ evs e, out = .fail evs e →
        ((e = .proofInvalid ∨ e = .sigInvalid) → evs = []) ∧
        ∃ n, (connectsOf evs).map Block.header = (headers.drop idx).take n) ∧
    (∀ evs, out = .done evs →
        ∃ n, (connectsOf evs).map Block.header = (headers.drop idx).take n) ∧
    (∀ evs start' idx', out = .next evs start' idx' →
        ∃ L, idx' = idx + L ∧
          (connectsOf evs).map Block.header = (headers.drop idx).take L ∧
          evs.all isConnectEvent = true) := by
  simp only [processBatch] at hout
  split at hout
  · -- `downloadBlockTxs` failed: soft ban, `txDownload` error
    rename_i e hdt
    rw [Option.some.injEq] at hout
    subst hout
    refine ⟨fun evs e' hf => ?_, fun evs hd => ?_, fun evs s' i' hn => ?_⟩
    · cases hf
      refine ⟨fun hval => ?_, ⟨0, by simp [connectsOf]⟩⟩
      rcases hval with h | h <;> cases h
    · cases hd
    · cases hn
  · rename_i txs hdt
    split at hout
    · -- `buildBatch` panicked
      exact absurd hout (by simp)
    · -- Merkle mismatch: hard ban
      rename_i er hbb
      rw [Option.some.injEq] at hout
      subst hout
      refine ⟨fun evs e' hf => ?_, fun evs hd => ?_, fun evs s' i' hn => ?_⟩
      · cases hf
        refine ⟨fun hval => ?_, ⟨0, by simp [connectsOf]⟩⟩
        have hmer : er = .merkleMismatch :=
          (buildBatch_spec env headers txs idx (.error er) hbb).1 er rfl
        rcases hval with h | h <;> (rw [hmer] at h; cases h)
      · cases hd
      · cases hn
    · rename_i blks hbb
      obtain ⟨hmapB, hlenB⟩ :=
        (buildBatch_spec env headers txs idx (.ok blks) hbb).2 blks rfl
      split at hout
      · -- proof validation failed: no events
        rw [Option.some.injEq] at hout
        subst hout
        refine ⟨fun evs e' hf => ?_, fun evs hd => ?_, fun evs s' i' hn => ?_⟩
        · cases hf
          exact ⟨fun _ => rfl, ⟨0, by simp [connectsOf]⟩⟩
        · cases hd
        · cases hn
      · split at hout
        · -- signature validation failed: no events
          rw [Option.some.injEq] at hout
          subst hout
          refine ⟨fun evs e' hf => ?_, fun evs hd => ?_, fun evs s' i' hn => ?_⟩
          · cases hf
            exact ⟨fun _ => rfl, ⟨0, by simp [connectsOf]⟩⟩
          · cases hd
          · cases hn
        · split at hout
          · -- `ConnectBlock` failed part-way through the batch
            rename_i evs0 e0 hcb
            obtain ⟨⟨m, hm⟩, _, _, herrC⟩ :=
              connectBlocks_spec env flags blks evs0 (.error e0) hcb
            rw [Option.some.injEq] at hout
            subst hout
            refine ⟨fun evs e' hf => ?_, fun evs hd => ?_, fun evs s' i' hn => ?_⟩
            · cases hf
              constructor
              · intro hval
                have hcf : e0 = .connectFailed := herrC e0 rfl
                rcases hval with h | h <;> (rw [hcf] at h; cases h)
              · refine ⟨min m txs.length, ?_⟩
                rw [hm, List.map_take, hmapB, List.take_take]
            · cases hd
            · cases hn
          · -- every block of the batch connected
            rename_i evs0 a hcb
            cases a
            obtain ⟨_, hok, hall, _⟩ := connectBlocks_spec env flags blks evs0 (.ok ()) hcb
            split at hout
            · -- `stop` resolved to `endHeight`: last batch, `done`
              rw [if_pos rfl, Option.some.injEq] at hout
              subst hout
              refine ⟨fun evs e' hf => ?_, fun evs hd => ?_, fun evs s' i' hn => ?_⟩
              · cases hf
              · cases hd
                exact ⟨txs.length, by rw [hok rfl, hmapB]⟩
              · cases hn
            · split at hout
              · -- `stop = start + maxBatchSize` happened to equal `endHeight`
                rw [Option.some.injEq] at hout
                subst hout
                refine ⟨fun evs e' hf => ?_, fun evs hd => ?_, fun evs s' i' hn => ?_⟩
                · cases hf
                · cases hd
                  exact ⟨txs.length, by rw [hok rfl, hmapB]⟩
                · cases hn
              · -- more batches to go: `next`
                rw [Option.some.injEq] at hout
                subst hout
                refine ⟨fun evs e' hf => ?_, fun evs hd => ?_, fun evs s' i' hn => ?_⟩
                · cases hf
                · cases hd
                · cases hn
                  exact ⟨txs.length, rfl, by rw [hok rfl, hmapB], hall⟩

theorem batchLoop_spec (env : SyncEnv) (flags : BehaviorFlags) (headers : List BlockHeader)
    (endHeight : Nat) :
    ∀ (fuel start idx : Nat) (evs : List Event) (r : Except SyncErr Unit),
      batchLoop env flags headers endHeight fuel start idx = some (evs, r) →
      (∃ n, (connectsOf evs).map Block.header = (headers.drop idx).take n) ∧
      (∀ e, r = .error e → (e = .proofInvalid ∨ e = .sigInvalid) →
        evs.all isConnectEvent = true) := by
  intro fuel
  induction fuel with
  | zero => intro start idx evs r heq; simp [batchLoop] at heq
  | succ n ih =>
      intro start idx evs r heq
      simp only [batchLoop] at heq
      split at heq
      · exact absurd heq (by simp)
      · -- batch failed: surface the error
        rename_i evs0 e0 hpb
        rw [Option.some.injEq, Prod.mk.injEq] at heq
        obtain ⟨rfl, rfl⟩ := heq
        obtain ⟨hfail, _, _⟩ := processBatch_spec env flags headers endHeight start idx _ hpb
        obtain ⟨hv, hc⟩ := hfail evs0 e0 rfl
        refine ⟨hc, fun e he hval => ?_⟩
        cases he
        rw [hv hval]
        rfl
      · -- last batch: done
        rename_i evs0 hpb
        rw [Option.some.injEq, Prod.mk.injEq] at heq
        obtain ⟨rfl, rfl⟩ := heq
        obtain ⟨_, hdone, _⟩ := processBatch_spec env flags headers endHeight start idx _ hpb
        refine ⟨hdone evs0 rfl, fun e he => ?_⟩
        cases he
      · -- a full batch connected; recurse
        rename_i evs0 s' i' hpb
        obtain ⟨_, _, hnext⟩ := processBatch_spec env flags headers endHeight start idx _ hpb
        cases hbl : batchLoop env flags headers endHeight n s' i' with
        | none => rw [hbl] at heq; simp at heq
        | some pr =>
            cases pr with
            | mk pevs pres =>
              rw [hbl] at heq
              simp only [Option.map_some'] at heq
              rw [Option.some.injEq, Prod.mk.injEq] at heq
              obtain ⟨rfl, rfl⟩ := heq
              obtain ⟨⟨n', hconn'⟩, hval'⟩ := ih s' i' pevs pres hbl
              obtain ⟨L, hL, hconn0, hall0⟩ := hnext evs0 s' i' rfl
              subst hL
              constructor
              · refine ⟨L + n', ?_⟩
                simp only [connectsOf, List.filterMap_append, List.map_append] at hconn0 hconn' ⊢
                rw [hconn0, hconn', List.take_add, List.drop_drop]
              · intro e he hval
                rw [List.all_append, hall0, hval' e he hval]
                rfl

/-- Modelled from the spec: `BlockHeader.ID()` is a deterministic content
hash of the header (the hash itself is outside `src/`); concrete
environments use this injective encoding of the header fields. -/
def headerCode (h : BlockHeader) : ID :=
  Nat.pair h.height (Nat.pair h.parent (Nat.pair h.txRoot h.extra)) + 1

/-- C1: whenever the header download of `syncBlocks` succeeds, a successful
call implies the downloaded sequence passes all three header checks (last
header's ID is `expectedID`, first header's parent is `parent`, interior
headers are parent-linked); and when any check fails, `syncBlocks` emits
exactly one hard ban (+101) and returns an error, with no block handed to
`ConnectBlock`. -/
theorem syncBlocks_header_checks (env : SyncEnv) (fromHeight toHeight : Nat)
    (parent expectedID : ID) (flags : BehaviorFlags) (headers : List BlockHeader)
    (hdl : downloadHeaders env fromHeight toHeight = .ok headers) :
    (∀ evs, syncBlocks env fromHeight toHeight parent expectedID flags = some (evs, .ok ()) →
        headerChecks env.idFn headers parent expectedID = true) ∧
    (headerChecks env.idFn headers parent expectedID = false →
        ∃ e, syncBlocks env fromHeight toHeight parent expectedID flags =
          some ([.ban 101 0], .error e)) := by
  obtain ⟨hne, _⟩ := downloadStream_ok hdl
  obtain ⟨lastH, hl⟩ := Option.isSome_iff_exists.mp (List.getLast?_isSome.mpr hne)
  obtain ⟨firstH, hf⟩ := Option.isSome_iff_exists.mp (List.head?_isSome.mpr hne)
  constructor
  · intro evs hs
    simp only [syncBlocks, hdl, hl, hf] at hs
    split at hs
    · exact absurd hs (by simp)
    · split at hs
      · exact absurd hs (by simp)
      · split at hs
        · exact absurd hs (by simp)
        · rename_i hc1 hc2 hc3
          have c1 : env.idFn lastH = expectedID := not_not.mp hc1
          have c2 : firstH.parent = parent := not_not.mp hc2
          have c3 : chainLinked env.idFn headers = true := by
            cases hcl : chainLinked env.idFn headers
            · rw [hcl] at hc3; exact absurd rfl hc3
            · rfl
          simp [headerChecks, hl, hf, c1, c2, c3]
  · intro hcf
    by_cases c1 : env.idFn lastH = expectedID
    · by_cases c2 : firstH.parent = parent
      · by_cases c3 : chainLinked env.idFn headers = true
        · have hck : headerChecks env.idFn headers parent expectedID = true := by
            simp [headerChecks, hl, hf, c1, c2, c3]
          rw [hcf] at hck
          exact absurd hck (by simp)
        · have c3' : chainLinked env.idFn headers = false := by
            cases hcl : chainLinked env.idFn headers
            · rfl
            · exact absurd hcl c3
          exact ⟨.headersNotConnected, by simp [syncBlocks, hdl, hl, hf, c1, c2, c3']⟩
      · exact ⟨.unexpectedParent, by simp [syncBlocks, hdl, hl, hf, c1, c2]⟩
    · exact ⟨.unexpectedTipID, by simp [syncBlocks, hdl, hl, hf, c1]⟩

/-- An honest peer serving two parent-linked headers at heights 1 and 2
with empty blocks, for the C1 and amended-C5 witnesses. -/
def hdrA : BlockHeader := ⟨1, 7, 0, 0⟩

/-- Second header of the honest peer: height 2, parent `ID(hdrA)`. -/
def hdrB : BlockHeader := ⟨2, headerCode hdrA, 0, 0⟩

/-- Environment of the honest two-header peer. -/
def envA : SyncEnv :=
  { headerStream := fun h => if h = 1 then some [hdrA, hdrB] else some []
    txStream := fun h => if h = 1 then some [[], []] else some []
    idFn := headerCode
    merkleRoot := fun _ => 0
    proofBatchOk := fun _ => true
    sigBatchOk := fun _ => true
    connectOk := fun _ _ => true
    smFlag := BFNone }

/-- Witness for C1: the honest peer syncs successfully and its header
sequence passes the checks. -/
theorem syncBlocks_header_checks_witness :
    headerChecks envA.idFn [hdrA, hdrB] 7 (headerCode hdrB) = true :=
  (syncBlocks_header_checks envA 1 2 7 (headerCode hdrB) BFNone [hdrA, hdrB] rfl).1
    [.connect ⟨hdrA, []⟩, .connect ⟨hdrB, []⟩] rfl

/-- First header of the C5 counterexample peer: height 5. -/
def hdrC0 : BlockHeader := ⟨5, 3, 0, 0⟩

/-- Second header of the C5 counterexample peer: height 5 again, but
correctly parent-linked to `hdrC0`. -/
def hdrC1 : BlockHeader := ⟨5, headerCode hdrC0, 0, 0⟩

/-- Third header of the C5 counterexample peer: height 7, parent-linked. -/
def hdrC2 : BlockHeader := ⟨7, headerCode hdrC1, 0, 0⟩

/-- Peer serving parent-linked headers whose `Height` fields are not
strictly increasing (5, 5, 7): the header checks do not constrain heights. -/
def envC : SyncEnv :=
  { headerStream := fun h => if h = 5 then some [hdrC0, hdrC1, hdrC2] else some []
    txStream := fun h => if h = 5 then some [[], [], []] else some []
    idFn := headerCode
    merkleRoot := fun _ => 0
    proofBatchOk := fun _ => true
    sigBatchOk := fun _ => true
    connectOk := fun _ _ => true
    smFlag := BFNone }

/-- C5 (counterexample): a successful `syncBlocks` call whose peer served
chain-linked headers with heights 5, 5, 7 hands all three blocks to
`ConnectBlock`; consecutive connected blocks do not have strictly
increasing heights, refuting the claim as stated. -/
theorem syncBlocks_nonincreasing_heights_connected :
    syncBlocks envC 5 7 3 (headerCode hdrC2) BFNone =
      some ([.connect ⟨hdrC0, []⟩, .connect ⟨hdrC1, []⟩, .connect ⟨hdrC2, []⟩], .ok ()) ∧
    ¬ (connectsOf [.connect ⟨hdrC0, []⟩, .connect ⟨hdrC1, []⟩, .connect ⟨hdrC2, []⟩]).Chain'
        (fun a b => a.header.height < b.header.height) :=
  ⟨rfl, by simp [connectsOf, List.chain'_cons, hdrC0, hdrC1]⟩

/-- C5 (amended): blocks are handed to `ConnectBlock` in header order (the
connect trace is an in-order prefix of the downloaded headers), so whenever
the downloaded headers have strictly increasing `Height` fields — as any
honest chain does — consecutive blocks handed to `ConnectBlock` in one
`syncBlocks` call have strictly increasing heights. -/
theorem syncBlocks_connect_order (env : SyncEnv) (fromHeight toHeight : Nat)
    (parent expectedID : ID) (flags : BehaviorFlags) (headers : List BlockHeader)
    (evs : List Event) (r : Except SyncErr Unit)
    (hdl : downloadHeaders env fromHeight toHeight = .ok headers)
    (hinc : headers.Chain' (fun a b => a.height < b.height))
    (hs : syncBlocks env fromHeight toHeight parent expectedID flags = some (evs, r)) :
    (connectsOf evs).Chain' (fun a b => a.header.height < b.header.height) := by
  obtain ⟨hne, _⟩ := downloadStream_ok hdl
  obtain ⟨lastH, hl⟩ := Option.isSome_iff_exists.mp (List.getLast?_isSome.mpr hne)
  obtain ⟨firstH, hf⟩ := Option.isSome_iff_exists.mp (List.head?_isSome.mpr hne)
  simp only [syncBlocks, hdl, hl, hf] at hs
  split at hs
  · rw [Option.some.injEq, Prod.mk.injEq] at hs
    obtain ⟨rfl, _⟩ := hs
    simp [connectsOf]
  · split at hs
    · rw [Option.some.injEq, Prod.mk.injEq] at hs
      obtain ⟨rfl, _⟩ := hs
      simp [connectsOf]
    · split at hs
      · rw [Option.some.injEq, Prod.mk.injEq] at hs
        obtain ⟨rfl, _⟩ := hs
        simp [connectsOf]
      · obtain ⟨⟨n, hconn⟩, _⟩ :=
          batchLoop_spec env flags headers lastH.height (lastH.height + 2)
            firstH.height 0 evs r hs
        rw [List.drop_zero] at hconn
        have htake : (headers.take n).Chain' (fun a b => a.height < b.height) :=
          hinc.prefix (List.take_prefix n headers)
        rw [← hconn] at htake
        exact (List.chain'_map Block.header).mp htake

/-- Witness for the amended C5 at the honest two-header peer. -/
theorem syncBlocks_connect_order_witness :
    (connectsOf [.connect ⟨hdrA, []⟩, .connect ⟨hdrB, []⟩]).Chain'
      (fun a b => a.header.height < b.header.height) :=
  syncBlocks_connect_order envA 1 2 7 (headerCode hdrB) BFNone [hdrA, hdrB]
    [.connect ⟨hdrA, []⟩, .connect ⟨hdrB, []⟩] (.ok ())
    rfl (by simp [List.chain'_cons, hdrA, hdrB]) rfl

/-- C7: when proof or signature validation of a batch fails inside
`syncBlocks`, the error is surfaced with no ban-score increase (the whole
event trace contains only `ConnectBlock` hand-offs from earlier batches),
and the failing batch itself emits no events at all — in particular none of
its blocks reaches `ConnectBlock`. -/
theorem syncBlocks_validation_fail_no_ban (env : SyncEnv) (fromHeight toHeight : Nat)
    (parent expectedID : ID) (flags : BehaviorFlags) :
    (∀ evs e, syncBlocks env fromHeight toHeight parent expectedID flags =
          some (evs, .error e) →
        (e = .proofInvalid ∨ e = .sigInvalid) → evs.all isConnectEvent = true) ∧
    (∀ headers endHeight start idx evs e,
        processBatch env flags headers endHeight start idx = some (.fail evs e) →
        (e = .proofInvalid ∨ e = .sigInvalid) → evs = []) := by
  constructor
  · intro evs e hs hval
    cases hdl : downloadHeaders env fromHeight toHeight with
    | error msg =>
        simp only [syncBlocks, hdl] at hs
        rw [Option.some.injEq, Prod.mk.injEq] at hs
        obtain ⟨rfl, he⟩ := hs
        rw [Except.error.injEq] at he
        subst he
        rcases hval with h | h <;> cases h
    | ok headers =>
        cases hl : headers.getLast? with
        | none =>
            cases hf : headers.head? with
            | none =>
                simp only [syncBlocks, hdl, hl, hf] at hs
                exact absurd hs (by simp)
            | some firstH =>
                simp only [syncBlocks, hdl, hl, hf] at hs
                exact absurd hs (by simp)
        | some lastH =>
            cases hf : headers.head? with
            | none =>
                simp only [syncBlocks, hdl, hl, hf] at hs
                exact absurd hs (by simp)
            | some firstH =>
                simp only [syncBlocks, hdl, hl, hf] at hs
                split at hs
                · rw [Option.some.injEq, Prod.mk.injEq] at hs
                  obtain ⟨rfl, he⟩ := hs
                  rw [Except.error.injEq] at he
                  subst he
                  rcases hval with h | h <;> cases h
                · split at hs
                  · rw [Option.some.injEq, Prod.mk.injEq] at hs
                    obtain ⟨rfl, he⟩ := hs
                    rw [Except.error.injEq] at he
                    subst he
                    rcases hval with h | h <;> cases h
                  · split at hs
                    · rw [Option.some.injEq, Prod.mk.injEq] at hs
                      obtain ⟨rfl, he⟩ := hs
                      rw [Except.error.injEq] at he
                      subst he
                      rcases hval with h | h <;> cases h
                    · exact (batchLoop_spec env flags headers lastH.height
                        (lastH.height + 2) firstH.height 0 evs (.error e) hs).2 e rfl hval
  · intro headers endHeight start idx evs e hpb hval
    exact ((processBatch_spec env flags headers endHeight start idx _ hpb).1 evs e rfl).1 hval

/-- A transaction whose proof the batch validator will reject, for the C7
witness. -/
def tx7 : Tx := ⟨.standard, [], 0⟩

/-- Headers of the C7 witness peer (their `TxRoot` matches a one-element
transaction list under the witness Merkle oracle). -/
def hdrD0 : BlockHeader := ⟨1, 7, 1, 0⟩

/-- Second header of the C7 witness peer. -/
def hdrD1 : BlockHeader := ⟨2, headerCode hdrD0, 1, 0⟩

/-- Peer whose blocks pass the header and Merkle checks but fail batch
proof validation. -/
def envD : SyncEnv :=
  { headerStream := fun h => if h = 1 then some [hdrD0, hdrD1] else some []
    txStream := fun h => if h = 1 then some [[tx7], [tx7]] else some []
    idFn := headerCode
    merkleRoot := fun txs => txs.length
    proofBatchOk := fun _ => false
    sigBatchOk := fun _ => true
    connectOk := fun _ _ => true
    smFlag := BFNone }

/-- Witness for C7: the failing call surfaces `proofInvalid` with an empty
event trace (no bans, no connects). -/
theorem syncBlocks_validation_fail_no_ban_witness :
    syncBlocks envD 1 2 7 (headerCode hdrD1) BFNone = some ([], .error .proofInvalid) ∧
    ([] : List Event).all isConnectEvent = true :=
  ⟨rfl, (syncBlocks_validation_fail_no_ban envD 1 2 7 (headerCode hdrD1) BFNone).1
    [] .proofInvalid rfl (Or.inl rfl)⟩

/-! ### Fork-resolution lemmas (C2, C3) -/

/-- One successful iteration of the candidate-evaluation loop, as a
rewrite equation. -/
theorem evalCandidates_cons_ok (fe : ForkEnv) (forkBlock : ID) (forkHeight : Nat)
    (bid : ID) (penv : SyncEnv) (rest : List (ID × SyncEnv)) (st : EvalSt)
    (evs : List Event) (b0 : Block) (btl : List Block) (score : Nat)
    (hbid : ¬ bid = forkBlock)
    (hdew : downloadEvalWindow penv (forkHeight + 1) = some (evs, .ok (b0 :: btl)))
    (hscore : fe.calcScore (b0 :: btl) = some score) :
    evalCandidates fe forkBlock forkHeight ((bid, penv) :: rest) st =
      evalCandidates fe forkBlock forkHeight rest
        { scores := st.scores ++ [(bid, if (b0 :: btl).length < evaluationWindow
            then score / (b0 :: btl).length * evaluationWindow else score)]
          syncTo := st.syncTo ++ [(bid, (b0 :: btl).getLast (by simp))]
          tipOfChain := if (b0 :: btl).length < evaluationWindow then st.tipOfChain else false
          firstBlocks := st.firstBlocks ++ [b0]
          firstMap := st.firstMap ++ [(fe.idFn b0.header, bid)] } := by
  simp only [evalCandidates, if_neg hbid, hdew, hscore]

/-- Whether every candidate evaluated by the loop (those different from the
fork block) has a short evaluation window. -/
def evaluatedAllShort (forkBlock : ID) (forkHeight : Nat)
    (cands : List (ID × SyncEnv)) : Bool :=
  cands.all fun p =>
    if p.1 = forkBlock then true
    else
      match downloadEvalWindow p.2 (forkHeight + 1) with
      | some (_, .ok blks) => decide (blks.length < evaluationWindow)
      | _ => true

theorem evalCandidates_tip_eq (fe : ForkEnv) (forkBlock : ID) (forkHeight : Nat) :
    ∀ (cands : List (ID × SyncEnv)) (st st' : EvalSt),
      evalCandidates fe forkBlock forkHeight cands st = some (.ok st') →
      st'.tipOfChain = (st.tipOfChain && evaluatedAllShort forkBlock forkHeight cands) := by
  intro cands
  induction cands with
  | nil =>
      intro st st' h
      simp [evalCandidates] at h
      subst h
      simp [evaluatedAllShort]
  | cons c rest ih =>
      obtain ⟨bid, penv⟩ := c
      intro st st' h
      simp only [evalCandidates] at h
      by_cases hb : bid = forkBlock
      · rw [if_pos hb] at h
        rw [ih st st' h]
        simp [evaluatedAllShort, hb]
      · rw [if_neg hb] at h
        split at h
        · exact absurd h (by simp)
        · exact absurd h (by simp)
        · split at h
          · exact absurd h (by simp)
          · split at h
            · exact absurd h (by simp)
            · rename_i blks0 b0 btl hdew scoreOpt score hscore
              rw [ih _ _ h]
              by_cases hlen : btl.length + 1 < evaluationWindow <;>
                simp [evaluatedAllShort, hb, hdew, hlen]

/-- C2 (amended): after a successful candidate evaluation starting from the
initial accumulator, `tipOfChain` is true iff every evaluated candidate's
window came back short — so the `ConsensusChooser` decides only when all
evaluated windows are short, and the scores decide as soon as one window is
full; the winner selection uses the chooser exactly when `tipOfChain` is
true. -/
theorem forkEval_chooser_iff_all_short (fe : ForkEnv) (forkBlock : ID)
    (forkHeight : Nat) (cands : List (ID × SyncEnv)) (st' : EvalSt)
    (tip : Bool) (fb : List Block) (fm : List (ID × ID)) (si : List (ID × Nat))
    (bid : ID) (used : Bool)
    (heval : evalCandidates fe forkBlock forkHeight cands initEvalSt = some (.ok st'))
    (hsel : selectBest fe tip fb fm si = .ok (bid, used)) :
    st'.tipOfChain = evaluatedAllShort forkBlock forkHeight cands ∧ used = tip := by
  constructor
  · have h := evalCandidates_tip_eq fe forkBlock forkHeight cands initEvalSt st' heval
    simpa [initEvalSt] using h
  · cases tip with
    | false =>
        simp only [selectBest, if_neg (by simp : ¬ (false : Bool) = true)] at hsel
        rw [Except.ok.injEq, Prod.mk.injEq] at hsel
        exact hsel.2.symm
    | true =>
        simp only [selectBest] at hsel
        cases hc : fe.chooser fb with
        | none => rw [hc] at hsel; simp at hsel
        | some cid =>
            rw [hc] at hsel
            simp at hsel
            exact hsel.2

/-- `zipBlocks` over equal-length replicated streams. -/
theorem zipBlocks_replicate (hd : BlockHeader) (t : BlockTxs) :
    ∀ n, zipBlocks (List.replicate n hd) (List.replicate n t) =
      some (List.replicate n ⟨hd, t⟩) := by
  intro n
  induction n with
  | zero => rfl
  | succ m ih => simp [List.replicate_succ, zipBlocks, ih]

/-- `getLast` of a constant list. -/
theorem cons_replicate_getLast {α : Type} (a : α) :
    ∀ (n : Nat) (h : a :: List.replicate n a ≠ []),
      (a :: List.replicate n a).getLast h = a := by
  intro n
  induction n with
  | zero => intro h; rfl
  | succ m ih =>
      intro h
      show (a :: a :: List.replicate m a).getLast (by simp) = a
      rw [List.getLast_cons (by simp : a :: List.replicate m a ≠ [])]
      exact ih (by simp)

/-- Header served by the full-window candidate of the C2 counterexample
(the same peer as `env10w`). -/
def hdrF : BlockHeader := ⟨0, 0, 0, 0⟩

/-- Block of the full-window candidate. -/
def blkF : Block := ⟨hdrF, []⟩

/-- `downloadEvalWindow` as an equation over its collaborators' results. -/
theorem downloadEvalWindow_eq (env : SyncEnv) (f : Nat) (headers : List BlockHeader)
    (txs : List BlockTxs) (blks : List Block)
    (hH : downloadHeaders env f (f + evaluationWindow - 1) = .ok headers)
    (hT : downloadBlockTxs env f (f + evaluationWindow - 1) = .ok txs)
    (hZ : zipBlocks headers txs = some blks) :
    downloadEvalWindow env f = some ([], .ok blks) := by
  simp only [downloadEvalWindow, hH, hT, hZ]

/-- The full-window peer `env10w` serves a complete 5000-block evaluation
window from height 1. -/
theorem env10w_evalWindow :
    downloadEvalWindow env10w 1 = some ([], .ok (blkF :: List.replicate 4999 blkF)) := by
  have hH : downloadHeaders env10w 1 (1 + evaluationWindow - 1) =
      .ok (List.replicate 5000 hdrF) :=
    downloadStream_oneshot _ 1 (1 + evaluationWindow - 1) _
      (by intro hx; have := congrArg List.length hx;
          rw [List.length_replicate] at this; simp at this)
      (by rw [List.length_replicate]; decide) rfl
  have hT : downloadBlockTxs env10w 1 (1 + evaluationWindow - 1) =
      .ok (List.replicate 5000 ([] : BlockTxs)) :=
    downloadStream_oneshot _ 1 (1 + evaluationWindow - 1) _
      (by intro hx; have := congrArg List.length hx;
          rw [List.length_replicate] at this; simp at this)
      (by rw [List.length_replicate]; decide) rfl
  have hzip : zipBlocks (List.replicate 5000 hdrF) (List.replicate 5000 ([] : BlockTxs)) =
      some (blkF :: List.replicate 4999 blkF) := by
    rw [zipBlocks_replicate hdrF ([] : BlockTxs) 5000]
    rfl
  exact downloadEvalWindow_eq env10w 1 _ _ _ hH hT hzip

/-- Header of the short-window candidate of the C2 counterexample. -/
def hdrS : BlockHeader := ⟨1, 0, 0, 0⟩

/-- Peer whose evaluation window is a single block (it reaches its tip
immediately). -/
def envS : SyncEnv :=
  { headerStream := fun h => if h = 1 then some [hdrS] else some []
    txStream := fun h => if h = 1 then some [[]] else some []
    idFn := headerCode
    merkleRoot := fun _ => 0
    proofBatchOk := fun _ => true
    sigBatchOk := fun _ => true
    connectOk := fun _ _ => true
    smFlag := BFNone }

/-- Chain collaborators for the C2 counterexample: the chain score is the
window length, the chooser always picks ID 0. -/
def fe2 : ForkEnv :=
  { idFn := headerCode
    calcScore := fun blks => some blks.length
    chooser := fun _ => some 0 }

/-- Block of the short-window candidate. -/
def blkS : Block := ⟨hdrS, []⟩

/-- The accumulator state after evaluating the short and the full candidate
of the C2 counterexample. -/
def st2C : EvalSt :=
  { scores := [(11, 5000), (22, 5000)]
    syncTo := [(11, blkS), (22, blkF)]
    tipOfChain := false
    firstBlocks := [blkS, blkF]
    firstMap := [(headerCode hdrS, 11), (headerCode hdrF, 22)] }

/-- C2 (counterexample): candidate 11's evaluation window comes back with
a single block (short of `EVAL_WINDOW`), yet because candidate 22's window
is full, `tipOfChain` ends up false and the winner is picked by minimum
score — the `ConsensusChooser` is not invoked — refuting the claim that any
short window forces the chooser. -/
theorem forkEval_mixed_windows_scores_used :
    downloadEvalWindow envS 1 = some ([], .ok [blkS]) ∧
    evalCandidates fe2 0 0 [(11, envS), (22, env10w)] initEvalSt = some (.ok st2C) ∧
    st2C.tipOfChain = false ∧
    selectBest fe2 st2C.tipOfChain st2C.firstBlocks st2C.firstMap st2C.scores =
      .ok (11, false) := by
  refine ⟨rfl, ?_, rfl, rfl⟩
  rw [evalCandidates_cons_ok fe2 0 0 11 envS _ initEvalSt [] blkS [] 1
      (by decide) rfl rfl]
  have hscoreF : fe2.calcScore (blkF :: List.replicate 4999 blkF) = some 5000 := by
    show some (blkF :: List.replicate 4999 blkF).length = some 5000
    rw [List.length_cons, List.length_replicate]
  rw [evalCandidates_cons_ok fe2 0 0 22 env10w [] _ [] blkF (List.replicate 4999 blkF) 5000
      (by decide) env10w_evalWindow hscoreF]
  simp only [evalCandidates]
  rw [Option.some.injEq, Except.ok.injEq]
  have hlenF : (blkF :: List.replicate 4999 blkF).length = 5000 := by
    rw [List.length_cons, List.length_replicate]
  rw [EvalSt.mk.injEq]
  refine ⟨?_, ?_, ?_, ?_, ?_⟩
  · rw [hlenF]
    simp [initEvalSt, st2C, evaluationWindow]
  · rw [cons_replicate_getLast blkF 4999, List.getLast_singleton blkS]
    simp [initEvalSt, st2C]
  · rw [hlenF]
    simp [evaluationWindow, st2C, initEvalSt]
  · simp [initEvalSt, st2C]
  · simp [initEvalSt, st2C, fe2, blkS, blkF]

/-- The accumulator state after evaluating only the short candidate, for
the amended-C2 witness. -/
def st1C : EvalSt :=
  { scores := [(11, 5000)]
    syncTo := [(11, blkS)]
    tipOfChain := true
    firstBlocks := [blkS]
    firstMap := [(headerCode hdrS, 11)] }

/-- Witness for the amended C2 at a single short-window candidate: the
chooser branch is taken (`tipOfChain` stays true, all windows short). -/
theorem forkEval_chooser_iff_all_short_witness :
    st1C.tipOfChain = evaluatedAllShort 0 0 [(11, envS)] ∧ (true : Bool) = true :=
  forkEval_chooser_iff_all_short fe2 0 0 [(11, envS)] st1C true [blkS]
    [(headerCode hdrS, 11)] [(11, 5000)] 0 true rfl rfl

/-! ### Winner selection (C3) -/

theorem selectLoop_no_improve :
    ∀ (l : List (ID × Nat)) (bestScore : Nat) (bid : ID),
      (∀ x ∈ l, bestScore ≤ x.2) → selectLoop l bestScore bid = bid := by
  intro l
  induction l with
  | nil => intro bestScore bid _; rfl
  | cons q rest ih =>
      obtain ⟨b, s⟩ := q
      intro bestScore bid hall
      simp only [selectLoop]
      rw [if_neg (by have := hall (b, s) (by simp); omega)]
      exact ih bestScore bid (fun x hx => hall x (by simp [hx]))

theorem selectLoop_min :
    ∀ (l : List (ID × Nat)) (bestScore : Nat) (bid : ID),
      (∃ x ∈ l, x.2 < bestScore) →
      ∃ p ∈ l, selectLoop l bestScore bid = p.1 ∧ p.2 < bestScore ∧
        ∀ y ∈ l, p.2 ≤ y.2 := by
  intro l
  induction l with
  | nil => intro bestScore bid h; simp at h
  | cons q rest ih =>
      obtain ⟨b, s⟩ := q
      intro bestScore bid hex
      simp only [selectLoop]
      by_cases hs : s < bestScore
      · rw [if_pos hs]
        by_cases hrest : ∃ x ∈ rest, x.2 < s
        · obtain ⟨p, hp, hsel, hlt, hmin⟩ := ih s b hrest
          refine ⟨p, by simp [hp], hsel, by omega, fun y hy => ?_⟩
          rcases List.mem_cons.mp hy with h | h
          · rw [h]; omega
          · exact hmin y h
        · push_neg at hrest
          rw [selectLoop_no_improve rest s b hrest]
          refine ⟨(b, s), by simp, rfl, hs, fun y hy => ?_⟩
          rcases List.mem_cons.mp hy with h | h
          · rw [h]
          · exact hrest y h
      · rw [if_neg hs]
        have hex' : ∃ x ∈ rest, x.2 < bestScore := by
          obtain ⟨x, hx, hlt⟩ := hex
          rcases List.mem_cons.mp hx with h | h
          · rw [h] at hlt; exact absurd hlt hs
          · exact ⟨x, h, hlt⟩
        obtain ⟨p, hp, hsel, hlt, hmin⟩ := ih bestScore bid hex'
        refine ⟨p, by simp [hp], hsel, hlt, fun y hy => ?_⟩
        rcases List.mem_cons.mp hy with h | h
        · rw [h]; omega
        · exact hmin y h

/-- C3 (amended): when scores decide the winner, the selected candidate is
one of minimal normalized score among the evaluated candidates — for any
iteration order of the Go `scores` map — provided some candidate scores
below `math.MaxInt32` (the initial `bestScore`); candidates at or above
`MaxInt32` can never be selected. -/
theorem selectBest_min_score (fe : ForkEnv) (fb : List Block) (fm : List (ID × ID))
    (si : List (ID × Nat)) (hlt : ∃ x ∈ si, x.2 < maxInt32) :
    ∃ p ∈ si, selectBest fe false fb fm si = .ok (p.1, false) ∧
      p.2 < maxInt32 ∧ ∀ y ∈ si, p.2 ≤ y.2 := by
  obtain ⟨p, hp, hsel, hlt', hmin⟩ := selectLoop_min si maxInt32 zeroID hlt
  exact ⟨p, hp, by simp [selectBest, hsel], hlt', hmin⟩

/-- Trivial chain collaborators for the C3 theorems. -/
def fe3 : ForkEnv :=
  { idFn := headerCode
    calcScore := fun _ => none
    chooser := fun _ => none }

/-- C3 (counterexample): a sole candidate whose normalized chain score is
exactly `math.MaxInt32` cannot win — `score < bestScore` is strict and
`bestScore` starts at `MaxInt32` — so the selection returns the zero ID
(which is not a candidate) instead of the minimum-score candidate,
refuting "every candidate, whatever its score value, is eligible to win". -/
theorem selectBest_maxint32_ineligible :
    selectBest fe3 false [] [] [(5, 2147483647)] = .ok (zeroID, false) ∧
    zeroID ≠ 5 :=
  ⟨rfl, by decide⟩

/-- Witness for the amended C3: with two candidates below `MaxInt32` the
minimum-score one is selected. -/
theorem selectBest_min_score_witness :
    ∃ p ∈ [((7 : ID), 50), ((8 : ID), 40)],
      selectBest fe3 false [] [] [((7 : ID), 50), ((8 : ID), 40)] = .ok (p.1, false) ∧
      p.2 < maxInt32 ∧ ∀ y ∈ [((7 : ID), 50), ((8 : ID), 40)], p.2 ≤ y.2 :=
  selectBest_min_score fe3 [] [] _ ⟨(7, 50), by simp, by decide⟩

/-! ### `findForkPoint` lemmas (C4) -/

theorem filterMap_eq_map_of {α β : Type} (l : List α) (F : α → Option β) (g : α → β)
    (h : ∀ x ∈ l, F x = some (g x)) : l.filterMap F = l.map g := by
  induction l with
  | nil => rfl
  | cons a rest ih =>
      simp only [List.filterMap_cons, h a (by simp), List.map_cons]
      rw [ih (fun x hx => h x (by simp [hx]))]

/-- With every peer answering `GetBlockID` successfully, the midpoint query
collects exactly the peers' answers. -/
theorem queryMid_eval (peers : List ForkPeer) (ans : ForkPeer → Nat → ID)
    (startHeight mid : Nat)
    (hans : ∀ p ∈ peers, ∀ h, p.getBlockID h = .found (ans p h)) :
    queryMid startHeight mid peers = .ok (peers.map fun p => ans p mid) := by
  have hpa : ∀ p ∈ peers, peerAnswer startHeight mid p = .ok (ans p mid) := by
    intro p hp
    unfold peerAnswer
    rw [hans p hp mid]
  unfold queryMid
  rw [if_neg ?hc]
  case hc =>
    intro hany
    rw [List.any_eq_true] at hany
    obtain ⟨p, hp, hbad⟩ := hany
    rw [hpa p hp] at hbad
    simp [Except.isOk, Except.toBool] at hbad
  rw [filterMap_eq_map_of peers _ (fun p => ans p mid)
    (fun p hp => by rw [hpa p hp]; rfl)]

theorem dedup_eq_single (b : ID) :
    ∀ (l : List ID), l ≠ [] → (∀ x ∈ l, x = b) → l.dedup = [b] := by
  intro l
  induction l with
  | nil => intro h; exact absurd rfl h
  | cons a rest ih =>
      intro _ hall
      have ha : a = b := hall a (by simp)
      cases hrest : rest with
      | nil =>
          subst hrest
          rw [List.dedup_cons_of_not_mem (by simp), List.dedup_nil, ha]
      | cons r rs =>
          subst hrest
          have hmem : a ∈ r :: rs := by
            have hr : r = b := hall r (by simp)
            rw [ha, ← hr]
            simp
          rw [List.dedup_cons_of_mem hmem]
          exact ih (by simp) (fun x hx => hall x (by simp [hx]))

theorem one_lt_dedup (l : List ID) (x y : ID) (hx : x ∈ l) (hy : y ∈ l)
    (hxy : x ≠ y) : 1 < l.dedup.length := by
  have hx' : x ∈ l.dedup := List.mem_dedup.mpr hx
  have hy' : y ∈ l.dedup := List.mem_dedup.mpr hy
  cases hd : l.dedup with
  | nil => rw [hd] at hx'; simp at hx'
  | cons a rest =>
      cases rest with
      | nil =>
          rw [hd] at hx' hy'
          simp at hx' hy'
          rw [hx', hy'] at hxy
          exact absurd rfl hxy
      | cons c rs => simp

/-- The binary-search loop returns the fork point: under deterministic,
always-found peer answers that agree exactly up to height `f`, the loop
maintains `cur ≤ f < to` and terminates returning `(B f, f)`. -/
theorem forkLoop_correct (peers : List ForkPeer) (ans : ForkPeer → Nat → ID)
    (B : Nat → ID) (f c : Nat)
    (hne : peers ≠ [])
    (hans : ∀ p ∈ peers, ∀ h, p.getBlockID h = .found (ans p h))
    (hagree : ∀ h, h ≤ f → ∀ p ∈ peers, ans p h = B h)
    (hdis : ∀ h, f < h → ∃ p ∈ peers, ∃ q ∈ peers, ans p h ≠ ans q h) :
    ∀ (fuel cur toH mid : Nat) (midID : ID),
      cur ≤ f → f < toH → cur ≤ mid → mid < toH → (mid = cur → toH = cur + 1) →
      toH - cur < fuel →
      forkLoop peers c fuel cur toH mid mid midID = .ok (B f, f) := by
  intro fuel
  induction fuel with
  | zero => intro cur toH mid midID _ _ _ _ _ hfuel; omega
  | succ n ih =>
      intro cur toH mid midID hcf hft hcm hmt hdeg hfuel
      have hq := queryMid_eval peers ans c mid hans
      simp only [forkLoop, hq]
      by_cases hmid : mid ≤ f
      · -- all peers agree at `mid`
        have hded : (peers.map fun p => ans p mid).dedup = [B mid] := by
          refine dedup_eq_single (B mid) _ (by simp [hne]) ?_
          intro x hx
          obtain ⟨p, hp, rfl⟩ := List.mem_map.mp hx
          exact hagree mid hmid p hp
        rw [hded]
        rw [if_neg (by simp)]
        by_cases hterm : mid = mid + (toH - mid) / 2
        · rw [if_pos hterm]
          have hto : toH = mid + 1 := by omega
          have hmf : mid = f := by omega
          rw [← hterm, hmf]
          simp
        · rw [if_neg hterm]
          have hcur : cur < mid := by
            by_contra hle
            have : mid = cur := by omega
            have := hdeg this
            omega
          exact ih mid toH (mid + (toH - mid) / 2) (B mid) hmid hft (by omega) (by omega)
            (fun hx => absurd (by omega : mid = mid + (toH - mid) / 2) hterm) (by omega)
      · -- peers disagree at `mid`
        push_neg at hmid
        obtain ⟨p, hp, q, hq', hpq⟩ := hdis mid hmid
        have hlen : 1 < (peers.map fun p => ans p mid).dedup.length :=
          one_lt_dedup _ (ans p mid) (ans q mid)
            (List.mem_map_of_mem _ hp) (List.mem_map_of_mem _ hq') hpq
        rw [if_pos hlen]
        have hcur : cur < mid := by omega
        rw [if_neg (by omega : ¬ mid = cur + (mid - cur) / 2)]
        exact ih cur mid (cur + (mid - cur) / 2) midID hcf hmid (by omega) (by omega)
          (by omega) (by omega)

/-- C4: under the entry precondition (all peers agree at `currentHeight`,
disagree at `toHeight`, with deterministic always-found answers sharing a
common prefix up toH the fork height `f`), `findForkPoint` terminates when
the midpoint stops changing and returns `(B f, f)`: the BlockID every
queried peer reported at `f`, with `f` the highest height at which all
candidate-tip peers still report the same BlockID. -/
theorem findForkPoint_correct (peers : List ForkPeer) (ans : ForkPeer → Nat → ID)
    (B : Nat → ID) (f currentHeight toHeight : Nat)
    (hne : peers ≠ [])
    (hans : ∀ p ∈ peers, ∀ h, p.getBlockID h = .found (ans p h))
    (hagree : ∀ h, h ≤ f → ∀ p ∈ peers, ans p h = B h)
    (hdis : ∀ h, f < h → ∃ p ∈ peers, ∃ q ∈ peers, ans p h ≠ ans q h)
    (hcf : currentHeight ≤ f) (hft : f < toHeight) :
    findForkPoint peers currentHeight toHeight = .ok (B f, f) := by
  unfold findForkPoint
  exact forkLoop_correct peers ans B f currentHeight hne hans hagree hdis
    (toHeight + 2) currentHeight toHeight
    (currentHeight + (toHeight - currentHeight) / 2) zeroID
    hcf hft (by omega) (by omega) (by omega) (by omega)

/-- First concrete peer for the C4 witness: follows chain `100+h` up to
height 1, then its own fork. -/
def p1C4 : ForkPeer :=
  { getBlockID := fun h => .found (if h ≤ 1 then 100 + h else 1)
    best := none }

/-- Second concrete peer for the C4 witness: same prefix, different fork. -/
def p2C4 : ForkPeer :=
  { getBlockID := fun h => .found (if h ≤ 1 then 100 + h else 2)
    best := none }

/-- The answer function of an always-found peer. -/
def ansW (p : ForkPeer) (h : Nat) : ID :=
  match p.getBlockID h with
  | .found i => i
  | _ => 0

/-- Witness for C4: two peers agreeing up to height 1 and disagreeing
above; the search returns block `101` at height `1`. -/
theorem findForkPoint_correct_witness :
    findForkPoint [p1C4, p2C4] 0 2 = .ok (101, 1) :=
  findForkPoint_correct [p1C4, p2C4] ansW (fun h => 100 + h) 1 0 2
    (by simp)
    (by intro p hp h; simp at hp; rcases hp with rfl | rfl <;> rfl)
    (by intro h hh p hp; simp at hp; rcases hp with rfl | rfl <;>
        simp [ansW, p1C4, p2C4, hh])
    (by intro h hh
        exact ⟨p1C4, by simp, p2C4, by simp, by
          simp [ansW, p1C4, p2C4, Nat.not_le.mpr hh]⟩)
    (by omega) (by omega)

end Ilxd
